import Mathlib

/-!
Power method (`power-method-cuda.cc`).

A shallow embedding of the dense power iteration of `power-method-cuda.cc`, in two readings of
the same source lines.

The machine reading (namespace `PowerMethod.Machine`) is for the statements about the program as
it runs:

* the operations on `double` that the program uses are the fields of a structure `DoubleOps α`
  and are left uninterpreted, so a statement proved for every `DoubleOps α` holds for the
  IEEE binary64 operations, rounding, infinities and NaN included;
* the `int` index `i * cols + j` is computed in 32 bits (`wrapInt`), and the matrix is a
  function of the signed cell offset.

The exact reading (namespace `PowerMethod`) is for the statements made in exact real arithmetic:

* `double` arithmetic is read in an exact linearly ordered field `α`; the square root of `libm`
  is a parameter `sqrt : α → α`, instantiated with `Real.sqrt` in the statements over `ℝ`;
* `int` and `long` values are unbounded integers.

In both readings a vector buffer `double*` is a function `Nat → α` from the cell index to its
content, a store into a cell is `store`, and a counted `for ( i = 0; i < rows; i++ )` loop runs
over `List.range rows.toNat`, which is empty for `rows ≤ 0` as the loop of the source is. The
machine reading with exact operations and a matrix of at most `2^31 - 1` cells is the exact
reading (`machine_solve_exact`).
-/

namespace PowerMethod

variable {α : Type}

/-- The buffer `buf` after the assignment `buf[i] = v`. -/
def store (buf : Nat → α) (i : Nat) (v : α) : Nat → α :=
  fun k => if k = i then v else buf k

/-! ## The exact reading -/

section Primitives

variable [LinearOrderedField α]

/-- The inner loop of `mat_vec_mult`: `temp = 0.0; for j < cols: temp += A[i*cols+j] * b[j]`. -/
def rowLoop (A : Nat → α) (i : Nat) (cols : Int) (b : Nat → α) : α :=
  (List.range cols.toNat).foldl (fun temp j => temp + A (i * cols.toNat + j) * b j) 0

/-- The function `mat_vec_mult( result, A, rows, cols, b )`: the buffer `result` on return. -/
def mat_vec_mult (result A : Nat → α) (rows cols : Int) (b : Nat → α) : Nat → α :=
  (List.range rows.toNat).foldl (fun res i => store res i (rowLoop A i cols b)) result

/-- The function `vec_vec_mult( c, a, rows, b )`: the value stored into `*c`. -/
def vec_vec_mult (a : Nat → α) (rows : Int) (b : Nat → α) : α :=
  (List.range rows.toNat).foldl (fun sum i => sum + a i * b i) 0 + 0

/-- The first loop of `normalize`: `magnitude = 0.0; for i < rows: magnitude += pow(a[i], 2.0)`. -/
def magnitude (a : Nat → α) (rows : Int) : α :=
  (List.range rows.toNat).foldl (fun m i => m + a i ^ 2) 0

/-- The function `normalize( c, a, rows )`: the buffer `c` on return. -/
def normalize (sqrt : α → α) (c a : Nat → α) (rows : Int) : Nat → α :=
  (List.range rows.toNat).foldl (fun c i => store c i (a i / sqrt (magnitude a rows))) c

end Primitives

/-- The variables of the power-method loop of `main`. -/
structure State (α : Type) where
  x : Nat → α
  y : Nat → α
  lambda : α
  lambda_0 : α
  k : Int

section Loop

variable [LinearOrderedField α]

/-- The state of `main` on reaching the `while`: `y[i] = 1.0` for `i < cols`,
`normalize( x, y, cols )`, `lambda = 0.0`, `lambda_0 = lambda + 2 * tolerance`, `k = 0`.
The buffers `x0`, `y0` are the uninitialised stack arrays. -/
def initState (sqrt : α → α) (cols : Int) (tolerance : α) (x0 y0 : Nat → α) : State α :=
  let y := (List.range cols.toNat).foldl (fun y i => store y i 1) y0
  let x := normalize sqrt x0 y cols
  let lambda : α := 0
  let lambda_0 := lambda + 2 * tolerance
  { x := x, y := y, lambda := lambda, lambda_0 := lambda_0, k := 0 }

/-- One pass of the body of the `while` loop. -/
def loopBody (sqrt : α → α) (a : Nat → α) (cols : Int) (s : State α) : State α :=
  let y := mat_vec_mult s.y a cols cols s.x
  let lambda_0 := s.lambda
  let lambda := vec_vec_mult s.x cols y
  let x := normalize sqrt s.x y cols
  { x := x, y := y, lambda := lambda, lambda_0 := lambda_0, k := s.k + 1 }

/-- The loop test `(std::abs(lambda - lambda_0) >= tolerance) && k <= numIterations`. -/
def loopCond (tolerance : α) (numIterations : Int) (s : State α) : Prop :=
  |s.lambda - s.lambda_0| ≥ tolerance ∧ s.k ≤ numIterations

instance loopCondDecidable (tolerance : α) (numIterations : Int) (s : State α) :
    Decidable (loopCond tolerance numIterations s) := by
  unfold loopCond
  exact inferInstance

/-- The `while` loop of `main`, run from the state `s` to its exit. -/
def powerLoop (sqrt : α → α) (a : Nat → α) (cols : Int) (tolerance : α) (numIterations : Int)
    (s : State α) : State α :=
  if loopCond tolerance numIterations s then
    powerLoop sqrt a cols tolerance numIterations (loopBody sqrt a cols s)
  else s
termination_by (numIterations + 1 - s.k).toNat
decreasing_by
  rename_i h
  have hk : s.k ≤ numIterations := h.2
  simp only [loopBody]
  omega

/-- The state after `j` passes of the loop body from the initial state, the stopping test
left aside. -/
def passes (sqrt : α → α) (a : Nat → α) (cols : Int) (tolerance : α) (x0 y0 : Nat → α)
    (j : Nat) : State α :=
  (loopBody sqrt a cols)^[j] (initState sqrt cols tolerance x0 y0)

/-- The power method of `main` on the matrix `a` of dimension `cols`: the state at loop exit. -/
def solve (sqrt : α → α) (a : Nat → α) (cols : Int) (tolerance : α) (numIterations : Int)
    (x0 y0 : Nat → α) : State α :=
  powerLoop sqrt a cols tolerance numIterations (initState sqrt cols tolerance x0 y0)

end Loop

/-- A command-line switch as `getopt( argc, argv, "e:m:" )` yields it, with the argument
already converted: `-e` by `atof`, `-m` by `atol`; any other switch is `unknown`. -/
inductive Switch (α : Type) where
  | e (optarg : α)
  | m (optarg : Int)
  | unknown

/-- The two settings of `main`. -/
structure Config (α : Type) where
  tolerance : α
  numIterations : Int

/-- The switch loop of `main`; `none` is the exit with `EXIT_FAILURE`. -/
def parseSwitches : List (Switch α) → Config α → Option (Config α)
  | [], cfg => some cfg
  | Switch.e v :: rest, cfg => parseSwitches rest { cfg with tolerance := v }
  | Switch.m v :: rest, cfg =>
      if v ≤ 0 then none else parseSwitches rest { cfg with numIterations := v }
  | Switch.unknown :: _, _ => none

section Main

variable [LinearOrderedField α]

/-- The defaults of `main`: `tolerance = pow(10, -6.0)`, `numIterations = 500`. -/
def defaultConfig : Config α :=
  { tolerance := (10 : α) ^ (-6 : Int), numIterations := 500 }

/-- The program `main` with the matrix `a` of dimension `cols` read from the file: the state at
loop exit, from which `lambda` and `k` are printed, or `none` for the exit with
`EXIT_FAILURE` of the switch loop. -/
def main (sqrt : α → α) (switches : List (Switch α)) (a : Nat → α) (cols : Int)
    (x0 y0 : Nat → α) : Option (State α) :=
  match parseSwitches switches defaultConfig with
  | none => none
  | some cfg => some (solve sqrt a cols cfg.tolerance cfg.numIterations x0 y0)

end Main

/-! ## Input matrices of the scenarios -/

/-- The buffer holding the values `l` from cell `0` on. -/
def ofList [Zero α] (l : List α) : Nat → α :=
  fun k => l.getD k 0

/-- The square of the Euclidean norm of the first `n` cells of `v`. -/
def normSq [LinearOrderedField α] (v : Nat → α) (n : Nat) : α :=
  ∑ i in Finset.range n, v i ^ 2

/-! ## The machine reading -/

/-- The operations on `double` used by the program: the constants `0.0`, `1.0` and `2.0`
(also the `2` of `2 * tolerance`, converted), `+`, `-`, `*`, `/`, `sqrt`, `pow( ·, 2.0 )`,
`std::abs` and the comparisons `>=` and `<`. -/
structure DoubleOps (α : Type) where
  zero : α
  one : α
  two : α
  add : α → α → α
  sub : α → α → α
  mul : α → α → α
  div : α → α → α
  sqrt : α → α
  sq : α → α
  abs : α → α
  ge : α → α → Bool
  lt : α → α → Bool

/-- The value of an `int` expression whose mathematical value is `z`: the representative of `z`
modulo `2^32` in `[-2^31, 2^31)`. -/
def wrapInt (z : Int) : Int :=
  (z + 2147483648) % 4294967296 - 2147483648

/-- The exact operations of a linearly ordered field with a square root `sqrt`. -/
def exactOps [LinearOrderedField α] (sqrt : α → α) : DoubleOps α where
  zero := 0
  one := 1
  two := 2
  add := fun u v => u + v
  sub := fun u v => u - v
  mul := fun u v => u * v
  div := fun u v => u / v
  sqrt := sqrt
  sq := fun u => u ^ 2
  abs := fun u => |u|
  ge := fun u v => decide (u ≥ v)
  lt := fun u v => decide (u < v)

/-- The exact operations on the finite values, with one further value `none` for NaN: an
operation with a NaN operand gives NaN, a comparison with a NaN operand is false, and `0 / 0`
and the square root of a negative value are NaN. A quotient `u / 0` with `u ≠ 0`, an infinity
in IEEE arithmetic, is not represented and is NaN here too. -/
def nanOps [LinearOrderedField α] (sqrt : α → α) : DoubleOps (Option α) where
  zero := some 0
  one := some 1
  two := some 2
  add := fun u v => match u, v with
    | some x, some y => some (x + y)
    | _, _ => none
  sub := fun u v => match u, v with
    | some x, some y => some (x - y)
    | _, _ => none
  mul := fun u v => match u, v with
    | some x, some y => some (x * y)
    | _, _ => none
  div := fun u v => match u, v with
    | some x, some y => if y = 0 then none else some (x / y)
    | _, _ => none
  sqrt := fun u => match u with
    | some x => if x < 0 then none else some (sqrt x)
    | none => none
  sq := fun u => match u with
    | some x => some (x ^ 2)
    | none => none
  abs := fun u => match u with
    | some x => some |x|
    | none => none
  ge := fun u v => match u, v with
    | some x, some y => decide (x ≥ y)
    | _, _ => false
  lt := fun u v => match u, v with
    | some x, some y => decide (x < y)
    | _, _ => false

namespace Machine

/-- The inner loop of `mat_vec_mult`: `temp = 0.0; for j < cols: temp += A[i*cols+j] * b[j]`,
the index computed in `int`. -/
def rowLoop (ops : DoubleOps α) (A : Int → α) (i : Nat) (cols : Int) (b : Nat → α) : α :=
  (List.range cols.toNat).foldl
    (fun (temp : α) (j : Nat) =>
      ops.add temp (ops.mul (A (wrapInt (wrapInt ((i : Int) * cols) + (j : Int)))) (b j)))
    ops.zero

/-- The function `mat_vec_mult( result, A, rows, cols, b )`: the buffer `result` on return. -/
def mat_vec_mult (ops : DoubleOps α) (result : Nat → α) (A : Int → α) (rows cols : Int)
    (b : Nat → α) : Nat → α :=
  (List.range rows.toNat).foldl (fun res i => store res i (rowLoop ops A i cols b)) result

/-- The function `vec_vec_mult( c, a, rows, b )`: the value stored into `*c`. -/
def vec_vec_mult (ops : DoubleOps α) (a : Nat → α) (rows : Int) (b : Nat → α) : α :=
  ops.add ((List.range rows.toNat).foldl (fun sum i => ops.add sum (ops.mul (a i) (b i))) ops.zero)
    ops.zero

/-- The first loop of `normalize`: `magnitude = 0.0; for i < rows: magnitude += pow(a[i], 2.0)`. -/
def magnitude (ops : DoubleOps α) (a : Nat → α) (rows : Int) : α :=
  (List.range rows.toNat).foldl (fun m i => ops.add m (ops.sq (a i))) ops.zero

/-- The function `normalize( c, a, rows )`: the buffer `c` on return. -/
def normalize (ops : DoubleOps α) (c a : Nat → α) (rows : Int) : Nat → α :=
  (List.range rows.toNat).foldl
    (fun c i => store c i (ops.div (a i) (ops.sqrt (magnitude ops a rows)))) c

/-- The state of `main` on reaching the `while`: `y[i] = 1.0` for `i < cols`,
`normalize( x, y, cols )`, `lambda = 0.0`, `lambda_0 = lambda + 2 * tolerance`, `k = 0`.
The buffers `x0`, `y0` are the uninitialised stack arrays. -/
def initState (ops : DoubleOps α) (cols : Int) (tolerance : α) (x0 y0 : Nat → α) : State α :=
  let y := (List.range cols.toNat).foldl (fun y i => store y i ops.one) y0
  let x := normalize ops x0 y cols
  let lambda : α := ops.zero
  let lambda_0 := ops.add lambda (ops.mul ops.two tolerance)
  { x := x, y := y, lambda := lambda, lambda_0 := lambda_0, k := 0 }

/-- One pass of the body of the `while` loop. -/
def loopBody (ops : DoubleOps α) (a : Int → α) (cols : Int) (s : State α) : State α :=
  let y := mat_vec_mult ops s.y a cols cols s.x
  let lambda_0 := s.lambda
  let lambda := vec_vec_mult ops s.x cols y
  let x := normalize ops s.x y cols
  { x := x, y := y, lambda := lambda, lambda_0 := lambda_0, k := s.k + 1 }

/-- The loop test `(std::abs(lambda - lambda_0) >= tolerance) && k <= numIterations`. -/
def loopCond (ops : DoubleOps α) (tolerance : α) (numIterations : Int) (s : State α) : Prop :=
  ops.ge (ops.abs (ops.sub s.lambda s.lambda_0)) tolerance = true ∧ s.k ≤ numIterations

instance loopCondDecidable (ops : DoubleOps α) (tolerance : α) (numIterations : Int)
    (s : State α) : Decidable (loopCond ops tolerance numIterations s) := by
  unfold loopCond
  exact inferInstance

/-- The `while` loop of `main`, run from the state `s` to its exit. -/
def powerLoop (ops : DoubleOps α) (a : Int → α) (cols : Int) (tolerance : α)
    (numIterations : Int) (s : State α) : State α :=
  if loopCond ops tolerance numIterations s then
    powerLoop ops a cols tolerance numIterations (loopBody ops a cols s)
  else s
termination_by (numIterations + 1 - s.k).toNat
decreasing_by
  rename_i h
  have hk : s.k ≤ numIterations := h.2
  simp only [loopBody]
  omega

/-- The state after `j` passes of the loop body from the initial state, the stopping test
left aside. -/
def passes (ops : DoubleOps α) (a : Int → α) (cols : Int) (tolerance : α) (x0 y0 : Nat → α)
    (j : Nat) : State α :=
  (loopBody ops a cols)^[j] (initState ops cols tolerance x0 y0)

/-- The power method of `main` on the matrix `a` of dimension `cols`: the state at loop exit. -/
def solve (ops : DoubleOps α) (a : Int → α) (cols : Int) (tolerance : α) (numIterations : Int)
    (x0 y0 : Nat → α) : State α :=
  powerLoop ops a cols tolerance numIterations (initState ops cols tolerance x0 y0)

end Machine

/-! ## Buffers and the primitives -/

theorem foldl_store_apply (f : Nat → α) (n : Nat) (buf : Nat → α) (k : Nat) :
    (List.range n).foldl (fun c i => store c i (f i)) buf k = if k < n then f k else buf k := by
  induction n with
  | zero => simp
  | succ n ih =>
    rw [List.range_succ, List.foldl_append]
    simp only [List.foldl_cons, List.foldl_nil, store]
    by_cases hk : k = n
    · subst hk; simp
    · rw [if_neg hk, ih]
      by_cases hlt : k < n
      · simp [hlt, Nat.lt_succ_of_lt hlt]
      · have : ¬ k < n + 1 := by omega
        simp [hlt, this]

section PrimitiveLemmas

variable [LinearOrderedField α]

theorem foldl_add_eq_sum (f : Nat → α) (n : Nat) :
    (List.range n).foldl (fun acc i => acc + f i) 0 = ∑ i in Finset.range n, f i := by
  induction n with
  | zero => simp
  | succ n ih => rw [List.range_succ, List.foldl_append, ih, Finset.sum_range_succ]; rfl

theorem rowLoop_eq_sum (A : Nat → α) (i cols : Nat) (b : Nat → α) :
    rowLoop A i (cols : Int) b = ∑ j in Finset.range cols, A (i * cols + j) * b j := by
  simp only [rowLoop, Int.toNat_ofNat]
  exact foldl_add_eq_sum (fun j => A (i * cols + j) * b j) cols

theorem vec_vec_mult_eq_sum (a : Nat → α) (n : Nat) (b : Nat → α) :
    vec_vec_mult a (n : Int) b = ∑ i in Finset.range n, a i * b i := by
  simp only [vec_vec_mult, Int.toNat_ofNat, add_zero]
  exact foldl_add_eq_sum (fun i => a i * b i) n

theorem mat_vec_mult_apply (result A : Nat → α) (rows cols : Nat) (b : Nat → α) (k : Nat) :
    mat_vec_mult result A (rows : Int) (cols : Int) b k
      = if k < rows then ∑ j in Finset.range cols, A (k * cols + j) * b j else result k := by
  simp only [mat_vec_mult, Int.toNat_ofNat]
  rw [foldl_store_apply (fun i => rowLoop A i (cols : Int) b) rows result k, rowLoop_eq_sum]

theorem magnitude_eq_sum (a : Nat → α) (n : Nat) :
    magnitude a (n : Int) = ∑ i in Finset.range n, a i ^ 2 := by
  simp only [magnitude, Int.toNat_ofNat]
  exact foldl_add_eq_sum (fun i => a i ^ 2) n

theorem normalize_apply (sqrt : α → α) (c a : Nat → α) (n : Nat) (k : Nat) :
    normalize sqrt c a (n : Int) k
      = if k < n then a k / sqrt (∑ i in Finset.range n, a i ^ 2) else c k := by
  simp only [normalize, Int.toNat_ofNat]
  rw [foldl_store_apply (fun i => a i / sqrt (magnitude a (n : Int))) n c k, magnitude_eq_sum]

end PrimitiveLemmas

/-! ## The machine reading: the primitives -/

theorem foldl_congr_mem {β γ : Type} (f g : β → γ → β) (l : List γ) (init : β)
    (h : ∀ x ∈ l, ∀ acc : β, f acc x = g acc x) : l.foldl f init = l.foldl g init := by
  induction l generalizing init with
  | nil => rfl
  | cons x l ih =>
    simp only [List.foldl_cons]
    rw [h x (List.mem_cons_self x l) init]
    exact ih _ (fun y hy acc => h y (List.mem_cons_of_mem x hy) acc)

theorem wrapInt_of_range (z : Int) (h0 : 0 ≤ z) (h1 : z ≤ 2147483647) : wrapInt z = z := by
  unfold wrapInt
  omega

/-- Within a matrix of at most `2^31 - 1` cells the `int` index is the mathematical one. -/
theorem wrapInt_index (rows cols i j : Nat) (hi : i < rows) (hj : j < cols)
    (hsize : rows * cols ≤ 2147483647) :
    wrapInt (wrapInt ((i : Int) * (cols : Int)) + (j : Int)) = ((i * cols + j : Nat) : Int) := by
  have h1 : i * cols + j < rows * cols := by
    calc i * cols + j < i * cols + cols := Nat.add_lt_add_left hj _
      _ = (i + 1) * cols := by ring
      _ ≤ rows * cols := Nat.mul_le_mul_right cols hi
  have h2 : i * cols ≤ i * cols + j := Nat.le_add_right _ _
  have e : ((i : Int) * (cols : Int)) = ((i * cols : Nat) : Int) := by push_cast; ring
  rw [e]
  generalize i * cols = p at h1 h2 ⊢
  rw [wrapInt_of_range (p : Int) (by omega) (by omega)]
  rw [wrapInt_of_range ((p : Int) + (j : Int)) (by omega) (by omega)]
  push_cast
  ring

theorem machine_rowLoop_in_range (ops : DoubleOps α) (A : Int → α) (b : Nat → α)
    (rows cols i : Nat) (hi : i < rows) (hsize : rows * cols ≤ 2147483647) :
    Machine.rowLoop ops A i (cols : Int) b
      = (List.range cols).foldl
          (fun temp j => ops.add temp (ops.mul (A ((i * cols + j : Nat) : Int)) (b j)))
          ops.zero := by
  simp only [Machine.rowLoop, Int.toNat_ofNat]
  apply foldl_congr_mem
  intro j hj acc
  rw [wrapInt_index rows cols i j hi (List.mem_range.1 hj) hsize]

section LoopLemmas

variable [LinearOrderedField α]

theorem powerLoop_eq (sqrt : α → α) (a : Nat → α) (cols : Int) (tolerance : α) (numIterations : Int)
    (s : State α) :
    powerLoop sqrt a cols tolerance numIterations s
      = if loopCond tolerance numIterations s then
          powerLoop sqrt a cols tolerance numIterations (loopBody sqrt a cols s)
        else s := by
  rw [powerLoop]

theorem loopBody_k (sqrt : α → α) (a : Nat → α) (cols : Int) (s : State α) :
    (loopBody sqrt a cols s).k = s.k + 1 := rfl

theorem iterate_loopBody_k (sqrt : α → α) (a : Nat → α) (cols : Int) (s : State α) (j : Nat) :
    ((loopBody sqrt a cols)^[j] s).k = s.k + j := by
  induction j with
  | zero => simp
  | succ j ih =>
    rw [Function.iterate_succ_apply', loopBody_k, ih]
    push_cast
    ring

/-- The loop from `s` is a finite number `K` of passes of the body: the test holds before each
of them and fails after the last. -/
theorem powerLoop_iterate (sqrt : α → α) (a : Nat → α) (cols : Int) (tolerance : α)
    (numIterations : Int) (s : State α) :
    ∃ K : Nat, powerLoop sqrt a cols tolerance numIterations s = (loopBody sqrt a cols)^[K] s
      ∧ (∀ j < K, loopCond tolerance numIterations ((loopBody sqrt a cols)^[j] s))
      ∧ ¬ loopCond tolerance numIterations ((loopBody sqrt a cols)^[K] s) := by
  generalize hm : (numIterations + 1 - s.k).toNat = m
  induction m using Nat.strong_induction_on generalizing s with
  | _ m ih =>
    rw [powerLoop_eq]
    by_cases hc : loopCond tolerance numIterations s
    · rw [if_pos hc]
      have hk : s.k ≤ numIterations := hc.2
      obtain ⟨K, hK, hlt, hex⟩ := ih ((numIterations + 1 - (loopBody sqrt a cols s).k).toNat)
        (by rw [loopBody_k]; omega) (loopBody sqrt a cols s) rfl
      refine ⟨K + 1, ?_, ?_, ?_⟩
      · rw [hK, Function.iterate_succ_apply]
      · intro j hj
        cases j with
        | zero => exact hc
        | succ j =>
          rw [Function.iterate_succ_apply]
          exact hlt j (by omega)
      · rw [Function.iterate_succ_apply]; exact hex
    · rw [if_neg hc]
      exact ⟨0, rfl, fun j hj => absurd hj (Nat.not_lt_zero j), hc⟩

/-- When the test holds before each of the first `K` passes and fails after them, the loop is
these `K` passes. -/
theorem powerLoop_of_passes (sqrt : α → α) (a : Nat → α) (cols : Int) (tolerance : α)
    (numIterations : Int) (K : Nat) (s : State α)
    (hlt : ∀ j < K, loopCond tolerance numIterations ((loopBody sqrt a cols)^[j] s))
    (hex : ¬ loopCond tolerance numIterations ((loopBody sqrt a cols)^[K] s)) :
    powerLoop sqrt a cols tolerance numIterations s = (loopBody sqrt a cols)^[K] s := by
  induction K generalizing s with
  | zero =>
    have hex0 : ¬ loopCond tolerance numIterations s := hex
    rw [powerLoop_eq, if_neg hex0]
    rfl
  | succ K ih =>
    have hc0 : loopCond tolerance numIterations s := hlt 0 (Nat.succ_pos K)
    rw [powerLoop_eq, if_pos hc0, Function.iterate_succ_apply]
    apply ih
    · intro j hj
      rw [← Function.iterate_succ_apply]
      exact hlt (j + 1) (by omega)
    · rw [← Function.iterate_succ_apply]
      exact hex

theorem passes_k (sqrt : α → α) (a : Nat → α) (cols : Int) (tolerance : α) (x0 y0 : Nat → α)
    (j : Nat) : (passes sqrt a cols tolerance x0 y0 j).k = j := by
  simp [passes, iterate_loopBody_k, initState]

theorem passes_succ (sqrt : α → α) (a : Nat → α) (cols : Int) (tolerance : α) (x0 y0 : Nat → α)
    (j : Nat) :
    passes sqrt a cols tolerance x0 y0 (j + 1)
      = loopBody sqrt a cols (passes sqrt a cols tolerance x0 y0 j) := by
  simp only [passes, Function.iterate_succ_apply']

theorem solve_of_passes (sqrt : α → α) (a : Nat → α) (cols : Int) (tolerance : α)
    (numIterations : Int) (x0 y0 : Nat → α) (K : Nat)
    (hlt : ∀ j < K, loopCond tolerance numIterations (passes sqrt a cols tolerance x0 y0 j))
    (hex : ¬ loopCond tolerance numIterations (passes sqrt a cols tolerance x0 y0 K)) :
    solve sqrt a cols tolerance numIterations x0 y0 = passes sqrt a cols tolerance x0 y0 K :=
  powerLoop_of_passes sqrt a cols tolerance numIterations K _ hlt hex

end LoopLemmas

/-! ## The machine reading: the loop -/

theorem machine_powerLoop_eq (ops : DoubleOps α) (a : Int → α) (cols : Int) (tolerance : α)
    (numIterations : Int) (s : State α) :
    Machine.powerLoop ops a cols tolerance numIterations s
      = if Machine.loopCond ops tolerance numIterations s then
          Machine.powerLoop ops a cols tolerance numIterations (Machine.loopBody ops a cols s)
        else s := by
  rw [Machine.powerLoop]

section NaNRun

variable [LinearOrderedField α]

theorem nan_mul_none (sqrt : α → α) (u : Option α) : (nanOps sqrt).mul u none = none := by
  cases u <;> rfl

end NaNRun

/-! ## The machine reading with exact operations is the exact reading -/

section Bridge

variable [LinearOrderedField α]

theorem machine_vec_vec_mult_exact (sqrt : α → α) (a b : Nat → α) (rows : Int) :
    Machine.vec_vec_mult (exactOps sqrt) a rows b = vec_vec_mult a rows b := rfl

theorem machine_normalize_exact (sqrt : α → α) (c a : Nat → α) (rows : Int) :
    Machine.normalize (exactOps sqrt) c a rows = normalize sqrt c a rows := rfl

theorem machine_initState_exact (sqrt : α → α) (cols : Int) (tolerance : α) (x0 y0 : Nat → α) :
    Machine.initState (exactOps sqrt) cols tolerance x0 y0
      = initState sqrt cols tolerance x0 y0 := rfl

theorem machine_mat_vec_mult_exact (sqrt : α → α) (result : Nat → α) (A : Int → α)
    (rows cols : Nat) (b : Nat → α) (hsize : rows * cols ≤ 2147483647) :
    Machine.mat_vec_mult (exactOps sqrt) result A (rows : Int) (cols : Int) b
      = mat_vec_mult result (fun k => A (k : Int)) (rows : Int) (cols : Int) b := by
  simp only [Machine.mat_vec_mult, mat_vec_mult, Int.toNat_ofNat]
  apply foldl_congr_mem
  intro i hi res
  rw [machine_rowLoop_in_range (exactOps sqrt) A b rows cols i (List.mem_range.1 hi) hsize]
  simp only [rowLoop, Int.toNat_ofNat]
  rfl

theorem machine_loopBody_exact (sqrt : α → α) (A : Int → α) (n : Nat) (s : State α)
    (hsize : n * n ≤ 2147483647) :
    Machine.loopBody (exactOps sqrt) A (n : Int) s
      = loopBody sqrt (fun k => A (k : Int)) (n : Int) s := by
  simp only [Machine.loopBody, loopBody, machine_mat_vec_mult_exact sqrt s.y A n n s.x hsize,
    machine_vec_vec_mult_exact, machine_normalize_exact]

theorem machine_loopCond_exact (sqrt : α → α) (tolerance : α) (numIterations : Int)
    (s : State α) :
    Machine.loopCond (exactOps sqrt) tolerance numIterations s
      ↔ loopCond tolerance numIterations s := by
  simp only [Machine.loopCond, loopCond]
  constructor
  · intro h
    exact ⟨of_decide_eq_true h.1, h.2⟩
  · intro h
    exact ⟨decide_eq_true h.1, h.2⟩

theorem machine_powerLoop_exact (sqrt : α → α) (A : Int → α) (n : Nat) (tolerance : α)
    (numIterations : Int) (hsize : n * n ≤ 2147483647) (s : State α) :
    Machine.powerLoop (exactOps sqrt) A (n : Int) tolerance numIterations s
      = powerLoop sqrt (fun k => A (k : Int)) (n : Int) tolerance numIterations s := by
  generalize hm : (numIterations + 1 - s.k).toNat = m
  induction m using Nat.strong_induction_on generalizing s with
  | _ m ih =>
    rw [machine_powerLoop_eq, powerLoop_eq]
    by_cases hc : loopCond tolerance numIterations s
    · have hk : s.k ≤ numIterations := hc.2
      rw [if_pos hc, if_pos ((machine_loopCond_exact sqrt tolerance numIterations s).2 hc),
        machine_loopBody_exact sqrt A n s hsize]
      exact ih _ (by rw [← hm, loopBody_k]; omega) _ rfl
    · rw [if_neg hc,
        if_neg (fun h => hc ((machine_loopCond_exact sqrt tolerance numIterations s).1 h))]

/-- With exact operations and a matrix of at most `2^31 - 1` cells, the machine reading of the
power method is the exact reading. -/
theorem machine_solve_exact (sqrt : α → α) (A : Int → α) (n : Nat) (tolerance : α)
    (numIterations : Int) (x0 y0 : Nat → α) (hsize : n * n ≤ 2147483647) :
    Machine.solve (exactOps sqrt) A (n : Int) tolerance numIterations x0 y0
      = solve sqrt (fun k => A (k : Int)) (n : Int) tolerance numIterations x0 y0 := by
  simp only [Machine.solve, solve, machine_initState_exact]
  exact machine_powerLoop_exact sqrt A n tolerance numIterations hsize _

end Bridge

/-! ## One pass, field by field -/

section PassLemmas

variable [LinearOrderedField α]

theorem initState_y (sqrt : α → α) (n : Nat) (tolerance : α) (x0 y0 : Nat → α) (i : Nat) :
    (initState sqrt (n : Int) tolerance x0 y0).y i = if i < n then 1 else y0 i := by
  simp only [initState, Int.toNat_ofNat]
  exact foldl_store_apply (fun _ => (1 : α)) n y0 i

theorem initState_x (sqrt : α → α) (n : Nat) (tolerance : α) (x0 y0 : Nat → α) (i : Nat)
    (hi : i < n) :
    (initState sqrt (n : Int) tolerance x0 y0).x i = 1 / sqrt (n : α) := by
  have hy : ∀ k, (List.range n).foldl (fun y i => store y i (1 : α)) y0 k
      = if k < n then 1 else y0 k := foldl_store_apply (fun _ => (1 : α)) n y0
  simp only [initState, Int.toNat_ofNat]
  rw [normalize_apply, if_pos hi, hy i, if_pos hi]
  have hsum : ∑ k in Finset.range n,
      ((List.range n).foldl (fun y i => store y i (1 : α)) y0 k) ^ 2 = (n : α) := by
    rw [Finset.sum_congr rfl (fun k hk => by rw [hy k, if_pos (Finset.mem_range.1 hk)])]
    simp
  rw [hsum]

theorem loopBody_y (sqrt : α → α) (a : Nat → α) (n : Nat) (s : State α) (i : Nat) :
    (loopBody sqrt a (n : Int) s).y i
      = if i < n then ∑ j in Finset.range n, a (i * n + j) * s.x j else s.y i := by
  simp only [loopBody]
  exact mat_vec_mult_apply s.y a n n s.x i

theorem loopBody_lambda (sqrt : α → α) (a : Nat → α) (n : Nat) (s : State α) :
    (loopBody sqrt a (n : Int) s).lambda
      = ∑ i in Finset.range n, s.x i * (loopBody sqrt a (n : Int) s).y i := by
  simp only [loopBody]
  exact vec_vec_mult_eq_sum s.x n _

theorem loopBody_lambda_0 (sqrt : α → α) (a : Nat → α) (cols : Int) (s : State α) :
    (loopBody sqrt a cols s).lambda_0 = s.lambda := rfl

theorem loopBody_x (sqrt : α → α) (a : Nat → α) (n : Nat) (s : State α) (i : Nat) :
    (loopBody sqrt a (n : Int) s).x i
      = if i < n then (loopBody sqrt a (n : Int) s).y i
          / sqrt (∑ l in Finset.range n, (loopBody sqrt a (n : Int) s).y l ^ 2)
        else s.x i := by
  simp only [loopBody]
  exact normalize_apply sqrt s.x _ n i

/-- A pass from an estimate with all components `c`, on a matrix with all row sums `mu`. -/
theorem loopBody_const (sqrt : α → α) (a : Nat → α) (n : Nat) (mu c : α) (s : State α)
    (ha : ∀ i < n, ∑ j in Finset.range n, a (i * n + j) = mu) (hx : ∀ i < n, s.x i = c) :
    (∀ i < n, (loopBody sqrt a (n : Int) s).y i = mu * c)
      ∧ (loopBody sqrt a (n : Int) s).lambda = n * (c * (mu * c))
      ∧ ∀ i < n, (loopBody sqrt a (n : Int) s).x i = mu * c / sqrt (n * (mu * c) ^ 2) := by
  have hy : ∀ i < n, (loopBody sqrt a (n : Int) s).y i = mu * c := by
    intro i hi
    rw [loopBody_y, if_pos hi,
      Finset.sum_congr rfl (fun j hj => by rw [hx j (Finset.mem_range.1 hj)]),
      ← Finset.sum_mul, ha i hi]
  refine ⟨hy, ?_, ?_⟩
  · rw [loopBody_lambda, Finset.sum_congr rfl (fun i hi => by
      rw [hx i (Finset.mem_range.1 hi), hy i (Finset.mem_range.1 hi)])]
    simp
  · intro i hi
    rw [loopBody_x, if_pos hi, hy i hi,
      Finset.sum_congr rfl (fun l hl => by rw [hy l (Finset.mem_range.1 hl)])]
    simp

end PassLemmas

/-! ## A start vector that is an eigenvector: equal row sums -/

section RowSums

end RowSums

/-! ## The scenario matrices -/

theorem diag_row_sum [LinearOrderedField α] (a : Nat → α) (n : Nat) (d : Nat → α)
    (ha : ∀ i < n, ∀ j < n, a (i * n + j) = if i = j then d i else 0) (v : Nat → α) (i : Nat)
    (hi : i < n) : ∑ j in Finset.range n, a (i * n + j) * v j = d i * v i := by
  rw [Finset.sum_congr rfl (fun j hj => by rw [ha i hi j (Finset.mem_range.1 hj)]),
    Finset.sum_eq_single i]
  · simp
  · intro j _ hji
    rw [if_neg (fun h => hji h.symm), zero_mul]
  · intro h
    exact absurd (Finset.mem_range.2 hi) h

theorem main_default [LinearOrderedField α] (sqrt : α → α) (a : Nat → α) (cols : Int)
    (x0 y0 : Nat → α) :
    main sqrt [] a cols x0 y0 = some (solve sqrt a cols ((10 : α) ^ (-6 : Int)) 500 x0 y0) := rfl

/-- With a tolerance `≤ 0` the convergence test never stops the loop: the run is
`numIterations + 1` passes (none when `numIterations < 0`). -/
theorem solve_nonpos_tolerance [LinearOrderedField α] (sqrt : α → α) (a : Nat → α) (cols : Int)
    (tolerance : α) (numIterations : Int) (x0 y0 : Nat → α) (htol : tolerance ≤ 0) :
    solve sqrt a cols tolerance numIterations x0 y0
      = passes sqrt a cols tolerance x0 y0 (numIterations + 1).toNat := by
  have hc : ∀ j : Nat, loopCond tolerance numIterations (passes sqrt a cols tolerance x0 y0 j)
      ↔ (j : Int) ≤ numIterations := by
    intro j
    simp only [loopCond, passes_k, ge_iff_le]
    exact ⟨fun h => h.2, fun h => ⟨le_trans htol (abs_nonneg _), h⟩⟩
  apply solve_of_passes
  · intro j hj
    rw [hc]
    omega
  · rw [hc]
    omega

/-! ## The `1 × 1` matrix `[1]` -/

theorem one_by_one_passes (tolerance : ℝ) (x0 y0 : Nat → ℝ) (j : Nat) :
    (passes Real.sqrt (ofList [1]) ((1 : Nat) : Int) tolerance x0 y0 j).x 0 = 1
      ∧ (passes Real.sqrt (ofList [1]) ((1 : Nat) : Int) tolerance x0 y0 (j + 1)).y 0 = 1
      ∧ (passes Real.sqrt (ofList [1]) ((1 : Nat) : Int) tolerance x0 y0 (j + 1)).lambda = 1 := by
  have ha : ∀ i < 1, ∑ l in Finset.range 1, (ofList [1] : Nat → ℝ) (i * 1 + l) = 1 := by
    intro i hi
    interval_cases i
    simp [ofList]
  have hx : ∀ j : Nat,
      (passes Real.sqrt (ofList [1]) ((1 : Nat) : Int) tolerance x0 y0 j).x 0 = 1 := by
    intro j
    induction j with
    | zero =>
      have h := initState_x Real.sqrt 1 tolerance x0 y0 0 (by decide)
      simpa [passes] using h
    | succ j ih =>
      have h := (loopBody_const Real.sqrt (ofList [1]) 1 1 1
        (passes Real.sqrt (ofList [1]) ((1 : Nat) : Int) tolerance x0 y0 j) ha
        (by intro i hi; interval_cases i; exact ih)).2.2 0 (by decide)
      rw [passes_succ, h]
      simp
  have h := loopBody_const Real.sqrt (ofList [1]) 1 1 1
    (passes Real.sqrt (ofList [1]) ((1 : Nat) : Int) tolerance x0 y0 j) ha
    (by intro i hi; interval_cases i; exact hx j)
  refine ⟨hx j, ?_, ?_⟩
  · rw [passes_succ, h.1 0 (by decide)]
    simp
  · rw [passes_succ, h.2.1]
    simp

/-! ## The Euclidean norm of the estimate -/

theorem normSq_normalize (c a : Nat → ℝ) (n : Nat) (h : ∃ i < n, a i ≠ 0) :
    normSq (normalize Real.sqrt c a (n : Int)) n = 1 := by
  obtain ⟨i, hi, hai⟩ := h
  have hpos : 0 < ∑ l in Finset.range n, a l ^ 2 := by
    apply Finset.sum_pos'
    · intro l _
      exact sq_nonneg _
    · exact ⟨i, Finset.mem_range.2 hi, by positivity⟩
  simp only [normSq]
  rw [Finset.sum_congr rfl (fun l hl => by
    rw [normalize_apply, if_pos (Finset.mem_range.1 hl), div_pow, Real.sq_sqrt hpos.le]),
    ← Finset.sum_div, div_self hpos.ne']

theorem normSq_initState (n : Nat) (tolerance : ℝ) (x0 y0 : Nat → ℝ) (hn : 1 ≤ n) :
    normSq (initState Real.sqrt (n : Int) tolerance x0 y0).x n = 1 := by
  have hn0 : (0 : ℝ) < n := by exact_mod_cast hn
  simp only [normSq]
  rw [Finset.sum_congr rfl (fun l hl => by
    rw [initState_x Real.sqrt n tolerance x0 y0 l (Finset.mem_range.1 hl), div_pow,
      Real.sq_sqrt hn0.le])]
  simp
  exact mul_inv_cancel₀ hn0.ne'

theorem normSq_passes_succ (a : Nat → ℝ) (n : Nat) (tolerance : ℝ) (x0 y0 : Nat → ℝ) (j : Nat)
    (h : ∃ i < n, (passes Real.sqrt a (n : Int) tolerance x0 y0 (j + 1)).y i ≠ 0) :
    normSq (passes Real.sqrt a (n : Int) tolerance x0 y0 (j + 1)).x n = 1 := by
  have hx : (passes Real.sqrt a (n : Int) tolerance x0 y0 (j + 1)).x
      = normalize Real.sqrt (passes Real.sqrt a (n : Int) tolerance x0 y0 j).x
          (passes Real.sqrt a (n : Int) tolerance x0 y0 (j + 1)).y (n : Int) := by
    rw [passes_succ]
    rfl
  rw [hx]
  exact normSq_normalize _ _ n h

/-! ## Diagonal matrices: the passes in closed form -/

section Diagonal

theorem diag_sum_pos (n : Nat) (d : Nat → ℝ) (hn : 1 ≤ n) (hpos : ∀ i < n, 0 < d i) (m : Nat) :
    0 < ∑ l in Finset.range n, d l ^ m := by
  apply Finset.sum_pos
  · intro l hl
    exact pow_pos (hpos l (Finset.mem_range.1 hl)) m
  · exact ⟨0, Finset.mem_range.2 hn⟩

/-- After `j` passes on `diag(d)` the estimate is `d i ^ j` over the norm of these powers. -/
theorem diag_passes_x (a : Nat → ℝ) (n : Nat) (d : Nat → ℝ) (tolerance : ℝ) (x0 y0 : Nat → ℝ)
    (hn : 1 ≤ n) (ha : ∀ i < n, ∀ j < n, a (i * n + j) = if i = j then d i else 0)
    (hpos : ∀ i < n, 0 < d i) (j : Nat) :
    ∀ i < n, (passes Real.sqrt a (n : Int) tolerance x0 y0 j).x i
      = d i ^ j / Real.sqrt (∑ l in Finset.range n, d l ^ (2 * j)) := by
  induction j with
  | zero =>
    intro i hi
    have h := initState_x Real.sqrt n tolerance x0 y0 i hi
    simpa [passes] using h
  | succ j ih =>
    intro i hi
    have hS : 0 < ∑ l in Finset.range n, d l ^ (2 * j) := diag_sum_pos n d hn hpos _
    have hS1 : 0 < ∑ l in Finset.range n, d l ^ (2 * (j + 1)) := diag_sum_pos n d hn hpos _
    have hsS : 0 < Real.sqrt (∑ l in Finset.range n, d l ^ (2 * j)) := Real.sqrt_pos.2 hS
    have hy : ∀ l < n, (passes Real.sqrt a (n : Int) tolerance x0 y0 (j + 1)).y l
        = d l ^ (j + 1) / Real.sqrt (∑ l in Finset.range n, d l ^ (2 * j)) := by
      intro l hl
      rw [passes_succ, loopBody_y, if_pos hl, diag_row_sum a n d ha _ l hl, ih l hl]
      ring
    have hmag : ∑ l in Finset.range n,
        (passes Real.sqrt a (n : Int) tolerance x0 y0 (j + 1)).y l ^ 2
        = (∑ l in Finset.range n, d l ^ (2 * (j + 1)))
            / (∑ l in Finset.range n, d l ^ (2 * j)) := by
      rw [Finset.sum_div]
      apply Finset.sum_congr rfl
      intro l hl
      rw [hy l (Finset.mem_range.1 hl), div_pow, Real.sq_sqrt hS.le, ← pow_mul]
      congr 2
      ring
    have hx := loopBody_x Real.sqrt a n (passes Real.sqrt a (n : Int) tolerance x0 y0 j) i
    rw [← passes_succ, if_pos hi, hmag, hy i hi, Real.sqrt_div hS1.le] at hx
    rw [hx]
    have hsS1 : 0 < Real.sqrt (∑ l in Finset.range n, d l ^ (2 * (j + 1))) := Real.sqrt_pos.2 hS1
    field_simp

/-- The eigenvalue estimate after `j + 1` passes on `diag(d)`. -/
theorem diag_passes_lambda (a : Nat → ℝ) (n : Nat) (d : Nat → ℝ) (tolerance : ℝ)
    (x0 y0 : Nat → ℝ) (hn : 1 ≤ n)
    (ha : ∀ i < n, ∀ j < n, a (i * n + j) = if i = j then d i else 0)
    (hpos : ∀ i < n, 0 < d i) (j : Nat) :
    (passes Real.sqrt a (n : Int) tolerance x0 y0 (j + 1)).lambda
      = (∑ l in Finset.range n, d l ^ (2 * j + 1)) / (∑ l in Finset.range n, d l ^ (2 * j)) := by
  have hS : 0 < ∑ l in Finset.range n, d l ^ (2 * j) := diag_sum_pos n d hn hpos _
  rw [passes_succ, loopBody_lambda, Finset.sum_div]
  apply Finset.sum_congr rfl
  intro l hl
  have hl' := Finset.mem_range.1 hl
  rw [loopBody_y, if_pos hl', diag_row_sum a n d ha _ l hl',
    diag_passes_x a n d tolerance x0 y0 hn ha hpos j l hl']
  have hsq : Real.sqrt (∑ l in Finset.range n, d l ^ (2 * j))
      * Real.sqrt (∑ l in Finset.range n, d l ^ (2 * j))
      = ∑ l in Finset.range n, d l ^ (2 * j) := Real.mul_self_sqrt hS.le
  have hsS : Real.sqrt (∑ l in Finset.range n, d l ^ (2 * j)) ≠ 0 := (Real.sqrt_pos.2 hS).ne'
  have key : ∀ r : ℝ, r ≠ 0 →
      d l ^ j / r * (d l * (d l ^ j / r)) = d l ^ (2 * j + 1) / (r * r) := by
    intro r hr
    field_simp
    ring
  rw [key _ hsS, hsq]

theorem passes_lambda_0 [LinearOrderedField α] (sqrt : α → α) (a : Nat → α) (cols : Int)
    (tolerance : α) (x0 y0 : Nat → α) (j : Nat) :
    (passes sqrt a cols tolerance x0 y0 (j + 1)).lambda_0
      = (passes sqrt a cols tolerance x0 y0 j).lambda := by
  rw [passes_succ, loopBody_lambda_0]

end Diagonal

/-! ## The scenario `A = [2,0,0,1]` -/

section TwoOne

theorem two_one_entries : ∀ i < 2, ∀ j < 2, (ofList [2, 0, 0, 1] : Nat → ℝ) (i * 2 + j)
    = if i = j then (fun l : Nat => if l = 0 then (2 : ℝ) else 1) i else 0 := by
  intro i hi j hj
  interval_cases i <;> interval_cases j <;> simp [ofList]

theorem two_one_pos : ∀ i < 2, (0 : ℝ) < (fun l : Nat => if l = 0 then (2 : ℝ) else 1) i := by
  intro i hi
  interval_cases i <;> simp

theorem two_one_lambda (tolerance : ℝ) (x0 y0 : Nat → ℝ) (j : Nat) :
    (passes Real.sqrt (ofList [2, 0, 0, 1]) ((2 : Nat) : Int) tolerance x0 y0 (j + 1)).lambda
      = (2 * 4 ^ j + 1) / (4 ^ j + 1) := by
  rw [diag_passes_lambda (ofList [2, 0, 0, 1]) 2 _ tolerance x0 y0 (by decide)
    two_one_entries two_one_pos j]
  have h4 : (2 : ℝ) ^ (2 * j) = 4 ^ j := by rw [pow_mul]; norm_num
  simp [Finset.sum_range_succ, pow_succ, h4]
  ring

theorem two_one_x (tolerance : ℝ) (x0 y0 : Nat → ℝ) (j : Nat) :
    (passes Real.sqrt (ofList [2, 0, 0, 1]) ((2 : Nat) : Int) tolerance x0 y0 j).x 0
        = 2 ^ j / Real.sqrt (4 ^ j + 1)
      ∧ (passes Real.sqrt (ofList [2, 0, 0, 1]) ((2 : Nat) : Int) tolerance x0 y0 j).x 1
        = 1 / Real.sqrt (4 ^ j + 1) := by
  have h := diag_passes_x (ofList [2, 0, 0, 1]) 2 _ tolerance x0 y0 (by decide)
    two_one_entries two_one_pos j
  have h4 : (2 : ℝ) ^ (2 * j) = 4 ^ j := by rw [pow_mul]; norm_num
  constructor
  · rw [h 0 (by decide)]
    simp [Finset.sum_range_succ, h4]
  · rw [h 1 (by decide)]
    simp [Finset.sum_range_succ, h4]

/-- The loop test on `[2,0,0,1]` with tolerance `1e-6`: it holds before each of the first
twelve passes, as far as the cap allows, and fails after the twelfth. -/
theorem two_one_cond (numIterations : Int) (x0 y0 : Nat → ℝ) :
    (∀ j : Nat, j < 12 → (j : Int) ≤ numIterations → loopCond ((10 : ℝ) ^ (-6 : Int)) numIterations
        (passes Real.sqrt (ofList [2, 0, 0, 1]) ((2 : Nat) : Int) ((10 : ℝ) ^ (-6 : Int)) x0 y0 j))
      ∧ ¬ loopCond ((10 : ℝ) ^ (-6 : Int)) numIterations
        (passes Real.sqrt (ofList [2, 0, 0, 1]) ((2 : Nat) : Int) ((10 : ℝ) ^ (-6 : Int))
          x0 y0 12) := by
  have htol : (10 : ℝ) ^ (-6 : Int) = 1 / 1000000 := by norm_num [zpow_neg]
  constructor
  · intro j hj hk
    refine ⟨?_, by rw [passes_k]; exact hk⟩
    rcases j with _ | _ | j
    · simp only [passes, Function.iterate_zero, id, initState, zero_add, zero_sub, abs_neg]
      rw [htol]
      refine le_trans ?_ (le_abs_self _)
      norm_num
    · rw [passes_lambda_0, two_one_lambda]
      simp only [passes, Function.iterate_zero, id, initState]
      rw [htol]
      refine le_trans ?_ (le_abs_self _)
      norm_num
    · rw [passes_lambda_0, two_one_lambda, two_one_lambda, htol]
      refine le_trans ?_ (le_abs_self _)
      have hj' : j < 10 := by omega
      interval_cases j <;> norm_num
  · intro h
    have h1 := h.1
    rw [passes_lambda_0, two_one_lambda, two_one_lambda, htol] at h1
    have : |(2 * (4 : ℝ) ^ 11 + 1) / (4 ^ 11 + 1) - (2 * 4 ^ 10 + 1) / (4 ^ 10 + 1)|
        < 1 / 1000000 := by
      rw [abs_lt]
      constructor <;> norm_num
    exact absurd h1 (not_le.2 this)

end TwoOne

/-! ## Diagonal matrices: the rate of convergence -/

section Rate

end Rate

/-- C2: for `n ≥ 1` the run is `K` passes of the loop body, and when none of the images
`y = A x` of these passes is the zero vector, the estimate `x` has Euclidean norm exactly `1`
before the first pass and after each of the `K` passes, so at the start and the end of every
pass. -/
theorem unit_norm_invariant (a : Nat → ℝ) (n : Nat) (tolerance : ℝ) (numIterations : Int)
    (x0 y0 : Nat → ℝ) (hn : 1 ≤ n) :
    ∃ K : Nat, solve Real.sqrt a (n : Int) tolerance numIterations x0 y0
          = passes Real.sqrt a (n : Int) tolerance x0 y0 K
      ∧ (∀ j < K, loopCond tolerance numIterations
          (passes Real.sqrt a (n : Int) tolerance x0 y0 j))
      ∧ ¬ loopCond tolerance numIterations (passes Real.sqrt a (n : Int) tolerance x0 y0 K)
      ∧ ((∀ j, 1 ≤ j → j ≤ K →
            ∃ i < n, (passes Real.sqrt a (n : Int) tolerance x0 y0 j).y i ≠ 0) →
          ∀ j ≤ K,
            Real.sqrt (normSq (passes Real.sqrt a (n : Int) tolerance x0 y0 j).x n) = 1) := by
  obtain ⟨K, hK, hlt, hex⟩ := powerLoop_iterate Real.sqrt a (n : Int) tolerance numIterations
    (initState Real.sqrt (n : Int) tolerance x0 y0)
  refine ⟨K, hK, hlt, hex, ?_⟩
  intro hy j hj
  cases j with
  | zero =>
    have h : normSq (passes Real.sqrt a (n : Int) tolerance x0 y0 0).x n = 1 :=
      normSq_initState n tolerance x0 y0 hn
    rw [h, Real.sqrt_one]
  | succ j =>
    rw [normSq_passes_succ a n tolerance x0 y0 j (hy (j + 1) (Nat.succ_pos j) hj), Real.sqrt_one]

/-- Witness for C2: on the `1 × 1` matrix `[1]` every image is `[1]`, and the estimate at loop
exit has norm `1`. -/
theorem unit_norm_invariant_witness :
    Real.sqrt (normSq (solve Real.sqrt (ofList [1]) ((1 : Nat) : Int) (1 / 2) 1
      (fun _ => 0) (fun _ => 0)).x 1) = 1 := by
  obtain ⟨K, hK, _, _, hinv⟩ :=
    unit_norm_invariant (ofList [1]) 1 (1 / 2) 1 (fun _ => 0) (fun _ => 0) (le_refl 1)
  rw [hK]
  apply hinv _ K (le_refl K)
  intro j hj _
  obtain ⟨j, rfl⟩ := Nat.exists_eq_succ_of_ne_zero (Nat.one_le_iff_ne_zero.1 hj)
  refine ⟨0, by decide, ?_⟩
  rw [(one_by_one_passes (1 / 2) (fun _ => 0) (fun _ => 0) j).2.1]
  exact one_ne_zero

/-- C9, the program at the failing input `-e 0` on the `1 × 1` matrix `[1]`: the tolerance `0`
is accepted, the loop runs `501` passes and the eigenvalue estimate `1` is produced. -/
theorem zero_tolerance_runs :
    ∃ s : State ℝ, main Real.sqrt [Switch.e 0] (ofList [1]) ((1 : Nat) : Int)
        (fun _ => 0) (fun _ => 0) = some s
      ∧ s = passes Real.sqrt (ofList [1]) ((1 : Nat) : Int) 0 (fun _ => 0) (fun _ => 0) 501
      ∧ s.k = 501 ∧ s.lambda = 1 := by
  have hs := solve_nonpos_tolerance Real.sqrt (ofList [1]) ((1 : Nat) : Int) (0 : ℝ) 500
    (fun _ => 0) (fun _ => 0) (le_refl 0)
  have h501 : ((500 : Int) + 1).toNat = 501 := by decide
  rw [h501] at hs
  refine ⟨solve Real.sqrt (ofList [1]) ((1 : Nat) : Int) (0 : ℝ) 500 (fun _ => 0) (fun _ => 0),
    rfl, hs, ?_, ?_⟩
  · rw [hs, passes_k]; rfl
  · rw [hs]
    exact (one_by_one_passes 0 (fun _ => 0) (fun _ => 0) 500).2.2

/-- C5: on `A = [2,0,0,1]` (`n = 2`) with the tolerance `1e-6` and the cap `500` (the defaults of
the program) the loop exits through the convergence test with the counter below the cap; the
final eigenvalue estimate is within `1e-6` of `2`, the final eigenvector has norm `1`, first
component within `1e-6` of `1` and second component below `1e-3`; the run is `12 ≤ 20` passes. -/
theorem two_one_scenario (x0 y0 : Nat → ℝ) :
    ∃ s : State ℝ, main Real.sqrt [] (ofList [2, 0, 0, 1]) ((2 : Nat) : Int) x0 y0 = some s
      ∧ s = passes Real.sqrt (ofList [2, 0, 0, 1]) ((2 : Nat) : Int) ((10 : ℝ) ^ (-6 : Int))
          x0 y0 12
      ∧ |s.lambda - s.lambda_0| < (10 : ℝ) ^ (-6 : Int) ∧ s.k ≤ 500
      ∧ |s.lambda - 2| < (10 : ℝ) ^ (-6 : Int)
      ∧ Real.sqrt (normSq s.x 2) = 1
      ∧ |s.x 0 - 1| < (10 : ℝ) ^ (-6 : Int) ∧ |s.x 1| < (10 : ℝ) ^ (-3 : Int)
      ∧ s.k = 12 ∧ s.k ≤ 20 := by
  obtain ⟨hc, hex⟩ := two_one_cond 500 x0 y0
  have hs : solve Real.sqrt (ofList [2, 0, 0, 1]) ((2 : Nat) : Int) ((10 : ℝ) ^ (-6 : Int)) 500
      x0 y0 = passes Real.sqrt (ofList [2, 0, 0, 1]) ((2 : Nat) : Int) ((10 : ℝ) ^ (-6 : Int))
        x0 y0 12 :=
    solve_of_passes _ _ _ _ _ _ _ 12 (fun j hj => hc j hj (by omega)) hex
  have htol : (10 : ℝ) ^ (-6 : Int) = 1 / 1000000 := by norm_num [zpow_neg]
  have htol3 : (10 : ℝ) ^ (-3 : Int) = 1 / 1000 := by norm_num [zpow_neg]
  obtain ⟨hx0, hx1⟩ := two_one_x ((10 : ℝ) ^ (-6 : Int)) x0 y0 12
  have ht2 : Real.sqrt ((4 : ℝ) ^ 12 + 1) ^ 2 = 4 ^ 12 + 1 := Real.sq_sqrt (by positivity)
  have hlo : (4096 : ℝ) ≤ Real.sqrt (4 ^ 12 + 1) :=
    (Real.le_sqrt' (by norm_num)).2 (by norm_num)
  have hhi : Real.sqrt ((4 : ℝ) ^ 12 + 1) ≤ 4096 + 1 / 1000 :=
    (Real.sqrt_le_left (by norm_num)).2 (by norm_num)
  have ht0 : (0 : ℝ) < Real.sqrt (4 ^ 12 + 1) := by linarith
  refine ⟨_, main_default Real.sqrt _ _ _ _, hs, ?_, ?_, ?_, ?_, ?_, ?_, ?_, ?_⟩
  · rw [hs]
    by_contra hn
    exact hex ⟨not_lt.1 hn, by rw [passes_k]; norm_num⟩
  · rw [hs, passes_k]; norm_num
  · rw [hs, two_one_lambda, htol, abs_lt]
    constructor <;> norm_num
  · rw [hs]
    simp only [normSq, Finset.sum_range_succ, Finset.sum_range_zero, zero_add]
    rw [hx0, hx1, div_pow, div_pow, ht2]
    norm_num
  · rw [hs, hx0, htol, abs_lt]
    have e : (2 : ℝ) ^ 12 / Real.sqrt (4 ^ 12 + 1) - 1
        = (4096 - Real.sqrt (4 ^ 12 + 1)) / Real.sqrt (4 ^ 12 + 1) := by
      field_simp
      norm_num
    rw [e]
    constructor
    · rw [lt_div_iff₀ ht0]
      linarith
    · have : (4096 - Real.sqrt ((4 : ℝ) ^ 12 + 1)) / Real.sqrt (4 ^ 12 + 1) ≤ 0 :=
        div_nonpos_of_nonpos_of_nonneg (by linarith) ht0.le
      linarith
  · rw [hs, hx1, htol3, abs_of_pos (by positivity), div_lt_div_iff₀ ht0 (by norm_num)]
    linarith
  · rw [hs, passes_k]; rfl
  · rw [hs, passes_k]; norm_num

/-- C4, the program at the failing input `-m 1` on `A = [2,0,0,1]`: the loop performs two
passes and is left with the counter at `2`, above the cap `1`, the convergence test not having
passed. -/
theorem cap_one_runs_two_passes :
    ∃ s : State ℝ, main Real.sqrt [Switch.m 1] (ofList [2, 0, 0, 1]) ((2 : Nat) : Int)
        (fun _ => 0) (fun _ => 0) = some s
      ∧ s = passes Real.sqrt (ofList [2, 0, 0, 1]) ((2 : Nat) : Int) ((10 : ℝ) ^ (-6 : Int))
          (fun _ => 0) (fun _ => 0) 2
      ∧ s.k = 2 ∧ ¬ s.k ≤ 1 ∧ ¬ |s.lambda - s.lambda_0| < (10 : ℝ) ^ (-6 : Int) := by
  obtain ⟨hc, _⟩ := two_one_cond 1 (fun _ => 0) (fun _ => 0)
  obtain ⟨hc500, _⟩ := two_one_cond 500 (fun _ => 0) (fun _ => 0)
  have hs : solve Real.sqrt (ofList [2, 0, 0, 1]) ((2 : Nat) : Int) ((10 : ℝ) ^ (-6 : Int)) 1
      (fun _ => 0) (fun _ => 0) = passes Real.sqrt (ofList [2, 0, 0, 1]) ((2 : Nat) : Int)
        ((10 : ℝ) ^ (-6 : Int)) (fun _ => 0) (fun _ => 0) 2 := by
    apply solve_of_passes
    · intro j hj
      exact hc j (by omega) (by omega)
    · intro h
      have hk := h.2
      rw [passes_k] at hk
      norm_num at hk
  refine ⟨solve Real.sqrt (ofList [2, 0, 0, 1]) ((2 : Nat) : Int) ((10 : ℝ) ^ (-6 : Int)) 1
      (fun _ => 0) (fun _ => 0), rfl, hs, ?_, ?_, ?_⟩
  · rw [hs, passes_k]; rfl
  · rw [hs, passes_k]; norm_num
  · rw [hs]
    exact not_lt.2 (hc500 2 (by norm_num) (by norm_num)).1

/-- C8: when the multiplication of `double` is commutative, `vec_vec_mult(a, n, b)` and
`vec_vec_mult(b, n, a)` return the same value for every `n ≥ 0`, each the value accumulated from
`0.0` in increasing `i` by `sum += a[i] * b[i]`, with the final `+ 0.0`, whatever the
operations on `double` are. -/
theorem vec_vec_mult_symm (ops : DoubleOps α) (hcomm : ∀ u v : α, ops.mul u v = ops.mul v u)
    (a b : Nat → α) (n : Nat) :
    Machine.vec_vec_mult ops a (n : Int) b = Machine.vec_vec_mult ops b (n : Int) a
      ∧ Machine.vec_vec_mult ops a (n : Int) b
        = ops.add ((List.range n).foldl (fun sum i => ops.add sum (ops.mul (a i) (b i))) ops.zero)
            ops.zero
      ∧ Machine.vec_vec_mult ops b (n : Int) a
        = ops.add ((List.range n).foldl (fun sum i => ops.add sum (ops.mul (a i) (b i))) ops.zero)
            ops.zero := by
  have h1 : Machine.vec_vec_mult ops a (n : Int) b
      = ops.add ((List.range n).foldl (fun sum i => ops.add sum (ops.mul (a i) (b i))) ops.zero)
          ops.zero := by
    simp only [Machine.vec_vec_mult, Int.toNat_ofNat]
  have h2 : Machine.vec_vec_mult ops b (n : Int) a
      = ops.add ((List.range n).foldl (fun sum i => ops.add sum (ops.mul (a i) (b i))) ops.zero)
          ops.zero := by
    simp only [Machine.vec_vec_mult, Int.toNat_ofNat]
    congr 1
    apply foldl_congr_mem
    intro i _ acc
    rw [hcomm]
  exact ⟨h1.trans h2.symm, h1, h2⟩

/-- Witness for C8: `[1,2]` and `[3,4]` with the exact operations of `ℚ`: both orders give
`11`. -/
theorem vec_vec_mult_symm_witness :
    Machine.vec_vec_mult (exactOps (fun u : ℚ => u)) (ofList [1, 2]) ((2 : Nat) : Int)
        (ofList [3, 4])
      = Machine.vec_vec_mult (exactOps (fun u : ℚ => u)) (ofList [3, 4]) ((2 : Nat) : Int)
        (ofList [1, 2])
      ∧ Machine.vec_vec_mult (exactOps (fun u : ℚ => u)) (ofList [3, 4]) ((2 : Nat) : Int)
        (ofList [1, 2]) = 11 := by
  have h := vec_vec_mult_symm (exactOps (fun u : ℚ => u)) (fun u v => mul_comm u v)
    (ofList [1, 2]) (ofList [3, 4]) 2
  refine ⟨h.1, ?_⟩
  rw [h.2.2]
  simp [exactOps, ofList, List.range_succ]
  norm_num

end PowerMethod
